import Mathlib

/-!
Verification of the conversation state engine and streaming-ingestion
protocol of a single-user chat client (source: `src/index.tsx`).

Strings from the source are modelled as `List Char`; `localStorage` is
modelled as an association list keyed by the chat id; the cooperative
cancellation flag (`stopGeneration`) is modelled by the number of loop
iterations that run before cancellation is observed.
-/

namespace RitsChat

/-- Character-list model of a JavaScript string. -/
abbrev Str := List Char

/-- Convert a Lean string literal into the `List Char` model. -/
def str (s : String) : Str := s.toList

/-- Model of the whitespace test used by JavaScript `String.prototype.trim`. -/
def isSpaceChar (c : Char) : Bool :=
  c == ' ' || c == '\t' || c == '\n' || c == '\r'

/-- Model of JavaScript `String.prototype.trim`: strip whitespace at both ends. -/
def trimChars (l : Str) : Str :=
  ((l.dropWhile isSpaceChar).reverse.dropWhile isSpaceChar).reverse

/-- JavaScript number results relevant to the stats computation:
a finite rational, positive/negative infinity, or NaN. -/
inductive JSNum where
  | fin (q : ℚ)
  | inf
  | ninf
  | nan
deriving DecidableEq

/-- JavaScript division `n / d` (IEEE semantics at the zero divisor:
`n/0` is `Infinity` for positive `n`, `-Infinity` for negative `n`,
and `NaN` for `0/0`). -/
def jsDiv (n d : ℚ) : JSNum :=
  if d = 0 then
    if n = 0 then JSNum.nan else if 0 < n then JSNum.inf else JSNum.ninf
  else JSNum.fin (n / d)

/-- Source field `sender` of a `ChatMessage` (source type user | model). -/
inductive Sender where
  | user
  | model
deriving DecidableEq

/-- Source type `MessageStats = { tokenCount: number; speed: number }`. -/
structure MessageStats where
  tokenCount : Nat
  speed : JSNum
deriving DecidableEq

/-- Source type `FileData = { data: string; mimeType: string }`. -/
structure FileData where
  data : Str
  mimeType : Str
deriving DecidableEq

/-- A grounding citation (`{uri, title}` entry of `groundingSources`). -/
structure Citation where
  uri : Str
  title : Str
deriving DecidableEq

/-- Source type `ChatMessage`. -/
structure ChatMessage where
  sender : Sender
  content : Str
  timestamp : Str
  stats : Option MessageStats
  file : Option FileData
  groundingSources : Option (List Citation)
deriving DecidableEq

/-- Source type `ChatIndexItem = { id; title; pinned?; archived? }`
(the absent optional flags read as `false`). -/
structure ChatIndexItem where
  id : Str
  title : Str
  pinned : Bool
  archived : Bool
deriving DecidableEq

/-- Backend selector (source type `Model = 'gemini' | 'deepseek'`). -/
inductive ModelKind where
  | gemini
  | deepseek
deriving DecidableEq

/-- Source type `ChatSettings`. -/
structure ChatSettings where
  systemInstruction : Option Str
  temperature : Option ℚ
  model : Option ModelKind
deriving DecidableEq

/-- Source type `StoredChat = { settings; messages }`. -/
structure StoredChat where
  settings : ChatSettings
  messages : List ChatMessage
deriving DecidableEq

/-- The mutable globals of the app that the claims are about:
`activeChatId`, `chatHistoryArray`, `currentSettings`, `chatIndex`,
plus the per-conversation slice of `localStorage` (keys
`gemini-chat-<id>`), modelled as an association list. -/
structure AppState where
  activeChatId : Option Str
  chatHistoryArray : List ChatMessage
  currentSettings : ChatSettings
  chatIndex : List ChatIndexItem
  storage : List (Str × StoredChat)
deriving DecidableEq

/-- Model of `localStorage.setItem` on the conversation store: replace the value
under an existing key, otherwise append the new pair. -/
def setStore (st : List (Str × StoredChat)) (k : Str) (v : StoredChat) :
    List (Str × StoredChat) :=
  if st.any (fun p => p.1 == k) then
    st.map (fun p => if p.1 == k then (k, v) else p)
  else st ++ [(k, v)]

/-- Model of `localStorage.getItem` on the conversation store. -/
def lookupStore (st : List (Str × StoredChat)) (k : Str) : Option StoredChat :=
  (st.find? (fun p => p.1 == k)).map (fun p => p.2)

/-- Source `getStoredChat(chatId)`: read and decode the per-id payload,
`null` when absent. -/
def getStoredChat (s : AppState) (chatId : Str) : Option StoredChat :=
  lookupStore s.storage chatId

/-- Source `saveCurrentChat()`: no-op without an `activeChatId`, otherwise
write the `{settings, messages}` snapshot under the active id. -/
def saveCurrentChat (s : AppState) : AppState :=
  match s.activeChatId with
  | none => s
  | some id =>
      { s with storage := setStore s.storage id ⟨s.currentSettings, s.chatHistoryArray⟩ }

/-- Source `loadChat(chatId)`: early return when the id is already active;
otherwise set `activeChatId` and, only if a stored payload exists, replace
`chatHistoryArray` and `currentSettings` from it. -/
def loadChat (s : AppState) (chatId : Str) : AppState :=
  if s.activeChatId = some chatId then s
  else
    let s1 := { s with activeChatId := some chatId }
    match getStoredChat s1 chatId with
    | some stored =>
        { s1 with chatHistoryArray := stored.messages, currentSettings := stored.settings }
    | none => s1

/-- Source `startNewChat()`: clear the active id and history and reset the
settings to the defaults `{ temperature: 0.9, model: 'gemini' }`. The
catalog (`chatIndex`) and storage are untouched. -/
def startNewChat (s : AppState) : AppState :=
  { s with
    activeChatId := none
    chatHistoryArray := []
    currentSettings := ⟨none, some (9 / 10), some ModelKind.gemini⟩ }

/-- Modify the first element satisfying `p` (JavaScript
`array.find(...)` followed by in-place mutation of the found object). -/
def modifyFirst (p : α → Bool) (f : α → α) : List α → List α
  | [] => []
  | a :: as => if p a then f a :: as else a :: modifyFirst p f as

/-- Source `togglePin(chatId)`: toggle the `pinned` flag of the first
index entry with the given id.  There is no check of `archived`. -/
def togglePin (idx : List ChatIndexItem) (chatId : Str) : List ChatIndexItem :=
  modifyFirst (fun c => c.id == chatId)
    (fun c => { c with pinned := !c.pinned }) idx

/-- The per-entry mutation performed by `toggleArchive`: flip `archived`;
when the entry becomes archived, also clear `pinned`. -/
def archiveUpd (c : ChatIndexItem) : ChatIndexItem :=
  let a := !c.archived
  { c with archived := a, pinned := if a then false else c.pinned }

/-- The catalog part of `toggleArchive(chatId)`. -/
def toggleArchiveIndex (idx : List ChatIndexItem) (chatId : Str) :
    List ChatIndexItem :=
  modifyFirst (fun c => c.id == chatId) archiveUpd idx

/-- Source `toggleArchive(chatId)`: mutate the first matching index entry
via `archiveUpd`; if the entry became archived and is the active chat,
switch to the first non-archived entry of the updated index, or start a
fresh chat when none exists. -/
def toggleArchive (s : AppState) (chatId : Str) : AppState :=
  match s.chatIndex.find? (fun c => c.id == chatId) with
  | none => s
  | some item =>
      let idx := toggleArchiveIndex s.chatIndex chatId
      let s1 := { s with chatIndex := idx }
      if !item.archived && s.activeChatId == some chatId then
        match idx.find? (fun c => !c.archived) with
        | some next => loadChat s1 next.id
        | none => startNewChat s1
      else s1

/-- Source `deleteChat(chatId)` (with the `confirm` dialog accepted):
remove the stored payload and the index entry; if the deleted chat was
active, switch to the first non-archived remaining entry, or start a
fresh chat when none exists. -/
def deleteChat (s : AppState) (chatId : Str) : AppState :=
  let s1 := { s with
    storage := s.storage.filter (fun p => !(p.1 == chatId))
    chatIndex := s.chatIndex.filter (fun c => !(c.id == chatId)) }
  if s.activeChatId = some chatId then
    match s1.chatIndex.find? (fun c => !c.archived) with
    | some next => loadChat s1 next.id
    | none => startNewChat s1
  else s1

/-- Source `handleEdit` save handler: trim the edited text; when it is
non-empty and differs from the original content, replace the content at
`index` and truncate everything after it; otherwise leave the history
unchanged. -/
def handleEditSave (turns : List ChatMessage) (index : Nat) (input : Str) :
    List ChatMessage :=
  match turns[index]? with
  | none => turns
  | some message =>
      let newText := trimChars input
      if newText ≠ [] && newText ≠ message.content then
        (turns.set index { message with content := newText }).take (index + 1)
      else turns

/-! ## Text-delta (SSE) adapter of `sendMessageWithDeepSeek` -/

/-- The stream-reading state of `sendMessageWithDeepSeek`: the carried-over
partial line (`buffer`), the `stopGeneration` flag, and the accumulated
`fullResponse`. -/
structure SSEState where
  lineBuf : Str
  stopFlag : Bool
  out : Str
deriving DecidableEq

/-- The literal line prefix `data: `. -/
def dataTag : Str := str "data: "

/-- The literal terminal sentinel `[DONE]`. -/
def doneLit : Str := str "[DONE]"

/-- Model of `buffer.split` with `buffer = lines.pop()`: given the carried-over
partial line `acc` and freshly decoded characters, return the complete lines
and the new trailing partial line. -/
def splitLinesAux : Str → Str → (List Str × Str)
  | acc, [] => ([], acc)
  | acc, c :: cs =>
      if c = '\n' then
        let r := splitLinesAux [] cs
        (acc :: r.1, r.2)
      else splitLinesAux (acc ++ [c]) cs

/-- The body of the `for (const line of lines)` loop: a `data: ` line whose
trimmed payload is `[DONE]` sets `stopGeneration` and breaks out of the loop
(the remaining lines of this read are skipped); a payload that parses
contributes its content delta; a payload that fails to parse is skipped.
The JSON decoding `JSON.parse` + `choices[0]?.delta?.content || ''` is
abstracted by the `parse` argument (`none` = parse failure). -/
def processLines (parse : Str → Option Str) :
    List Str → SSEState → SSEState
  | [], s => s
  | l :: rest, s =>
      if dataTag.isPrefixOf l then
        let payload := trimChars (l.drop 6)
        if payload = doneLit then { s with stopFlag := true }
        else
          match parse payload with
          | some t => processLines parse rest { s with out := s.out ++ t }
          | none => processLines parse rest s
      else processLines parse rest s

/-- One iteration of the `while(!stopGeneration)` read loop on a read that
delivered `chunk`: append to the buffer, split off the complete lines,
keep the trailing partial line, and process the complete lines. -/
def processChunk (parse : Str → Option Str) (s : SSEState) (chunk : Str) :
    SSEState :=
  if s.stopFlag then s
  else
    let r := splitLinesAux s.lineBuf chunk
    processLines parse r.1 { s with lineBuf := r.2 }

/-- The initial stream state: empty buffer, `stopGeneration = false`,
empty accumulated response. -/
def initSSE : SSEState := ⟨[], false, []⟩

/-- The whole read loop of `sendMessageWithDeepSeek` over the sequence of
reads delivered by the response body. -/
def processStream (parse : Str → Option Str) (chunks : List Str) : SSEState :=
  chunks.foldl (processChunk parse) initSSE

/-! ## Streaming sessions -/

/-- One structured-stream event of the Gemini transport: its text delta,
its (possibly empty) list of grounding chunks, and the optional
`usageMetadata.totalTokenCount`. -/
structure GenChunk where
  text : Str
  grounding : List Citation
  usage : Option Nat
deriving DecidableEq

/-- Citation deduplication at commit time:
`Array.from(new Map(sources.map(item => [item.uri, item])).values())`.
The JavaScript `Map` keeps the position of the first insertion of a key
and overwrites its value on re-insertion. -/
def insertLww (m : List (Str × Citation)) (c : Citation) :
    List (Str × Citation) :=
  if m.any (fun p => p.1 == c.uri) then
    m.map (fun p => if p.1 == c.uri then (p.1, c) else p)
  else m ++ [(c.uri, c)]

/-- Source `uniqueSources` of `sendMessageWithGemini`: the deduplicated citation
list committed with a Gemini model turn. -/
def uniqueSources (cs : List Citation) : List Citation :=
  (cs.foldl insertLww []).map (fun p => p.2)

/-- The accumulation phase of `sendMessageWithGemini`'s
`for await (const chunk of result)` loop when the first `processed`
chunks run before `stopGeneration` (or exhaustion) ends the loop:
concatenated text, pushed grounding chunks, and the token count read off
the last processed chunk (`lastChunk?.usageMetadata?.totalTokenCount ?? 0`). -/
def runGeminiCore (chunks : List GenChunk) (processed : Nat) :
    Str × List Citation × Nat :=
  let pre := chunks.take processed
  (((pre.map (fun c => c.text)).flatten),
   ((pre.map (fun c => c.grounding)).flatten),
   ((pre.getLast?.bind (fun c => c.usage)).getD 0))

/-- Source `sendMessageWithGemini` after the streaming loop: compute the
stats (`speed = tokenCount / ((endTime - startTime) / 1000)` with
JavaScript division, `elapsedMs` being the measured wall-clock span),
push the model message onto `chatHistoryArray`, and `saveCurrentChat()`.
This commit is unconditional: it runs whether the loop ended by
exhaustion or by `stopGeneration`. -/
def sendMessageWithGemini (s : AppState) (chunks : List GenChunk)
    (processed : Nat) (elapsedMs : ℚ) (ts : Str) : AppState :=
  let r := runGeminiCore chunks processed
  let stats : MessageStats := ⟨r.2.2, jsDiv (r.2.2 : ℚ) (elapsedMs / 1000)⟩
  let msg : ChatMessage :=
    ⟨Sender.model, r.1, ts, some stats, none, some (uniqueSources r.2.1)⟩
  saveCurrentChat { s with chatHistoryArray := s.chatHistoryArray ++ [msg] }

/-- Source `sendMessageWithDeepSeek`: reject an attachment outright;
otherwise run the SSE read loop over the first `reads` delivered chunks
(cancellation is observed at the top of the loop, so later reads are not
processed), then unconditionally push the model message with the
accumulated `fullResponse` (no stats, no grounding) and `saveCurrentChat()`. -/
def sendMessageWithDeepSeek (s : AppState) (file : Option FileData)
    (parse : Str → Option Str) (chunks : List Str) (reads : Nat) (ts : Str) :
    AppState :=
  match file with
  | some _ => s
  | none =>
      let final := processStream parse (chunks.take reads)
      let msg : ChatMessage := ⟨Sender.model, final.out, ts, none, none, none⟩
      saveCurrentChat { s with chatHistoryArray := s.chatHistoryArray ++ [msg] }

/-- The outcome of the `sendMessage` dispatch seen by `handleFormSubmit`:
the transport raised before any commit, or the Gemini session ran with
the given chunks/cancellation point/elapsed time/timestamp. -/
inductive SendOutcome where
  | fail
  | gemini (chunks : List GenChunk) (processed : Nat) (elapsedMs : ℚ) (ts : Str)

/-- Source `handleFormSubmit` (with `isGenerating` and speech recording
off): trim the input and return unless there is text or a file; lazily
assign a fresh id and unshift a catalog entry titled with the first 30
characters (falling back to `New Chat`); push the user turn onto
`chatHistoryArray` **without saving** (`// Don't save yet, save after
model response`); then run the send. -/
def handleFormSubmit (s : AppState) (input : Str) (file : Option FileData)
    (newId : Str) (userTs : Str) (oc : SendOutcome) : AppState :=
  let userMessage := trimChars input
  if userMessage = [] ∧ file = none then s
  else
    let s1 :=
      if s.activeChatId = none then
        let title := if userMessage.take 30 ≠ [] then userMessage.take 30
                     else str "New Chat"
        { s with activeChatId := some newId
                 chatIndex := ⟨newId, title, false, false⟩ :: s.chatIndex }
      else s
    let userMsg : ChatMessage := ⟨Sender.user, userMessage, userTs, none, file, none⟩
    let s2 := { s1 with chatHistoryArray := s1.chatHistoryArray ++ [userMsg] }
    match oc with
    | SendOutcome.fail => s2
    | SendOutcome.gemini chunks processed e ts =>
        sendMessageWithGemini s2 chunks processed e ts

/-! ## Lemmas about the SSE decoder -/

/-- The pure effect of a batch of complete lines: the emitted text up to a
possible `[DONE]` line, and whether a `[DONE]` line was hit. -/
def linesRes (parse : Str → Option Str) : List Str → Str × Bool
  | [] => ([], false)
  | l :: rest =>
      if dataTag.isPrefixOf l then
        let payload := trimChars (l.drop 6)
        if payload = doneLit then ([], true)
        else
          match parse payload with
          | some t => (t ++ (linesRes parse rest).1, (linesRes parse rest).2)
          | none => linesRes parse rest
      else linesRes parse rest

theorem processLines_eq (parse : Str → Option Str) (ls : List Str)
    (s : SSEState) (h : s.stopFlag = false) :
    processLines parse ls s =
      ⟨s.lineBuf, (linesRes parse ls).2, s.out ++ (linesRes parse ls).1⟩ := by
  induction ls generalizing s with
  | nil =>
      cases s
      simp_all [processLines, linesRes]
  | cons l rest ih =>
      by_cases hp : dataTag.isPrefixOf l
      · by_cases hd : trimChars (l.drop 6) = doneLit
        · cases s
          simp_all [processLines, linesRes]
        · cases hq : parse (trimChars (l.drop 6)) with
          | some t =>
              simp only [processLines, linesRes, hp, hd, hq, if_true, if_false,
                if_pos, if_neg, ite_true, ite_false]
              rw [ih { s with out := s.out ++ t } h]
              simp [List.append_assoc]
          | none =>
              simp only [processLines, linesRes, hp, hd, hq, ite_true, ite_false]
              rw [ih s h]
      · simp only [processLines, linesRes, hp, Bool.false_eq_true, if_false, ite_false]
        rw [ih s h]

theorem linesRes_append (parse : Str → Option Str) (xs ys : List Str) :
    linesRes parse (xs ++ ys) =
      if (linesRes parse xs).2 then linesRes parse xs
      else ((linesRes parse xs).1 ++ (linesRes parse ys).1,
            (linesRes parse ys).2) := by
  induction xs with
  | nil => simp [linesRes]
  | cons l rest ih =>
      by_cases hp : dataTag.isPrefixOf l
      · by_cases hd : trimChars (l.drop 6) = doneLit
        · simp [linesRes, hp, hd]
        · cases hq : parse (trimChars (l.drop 6)) with
          | some t =>
              simp only [List.cons_append, linesRes, hp, hd, hq, ite_true, ite_false,
                if_neg, List.append_eq]
              rw [ih]
              by_cases h2 : (linesRes parse rest).2 <;> simp [h2, List.append_assoc]
          | none =>
              simp only [List.cons_append, linesRes, hp, hd, hq, ite_true, ite_false,
                if_neg, List.append_eq]
              rw [ih]
      · simp only [List.cons_append, linesRes, hp, Bool.false_eq_true, ite_false,
          if_false, List.append_eq]
        rw [ih]

theorem splitLinesAux_append (xs : Str) : ∀ (acc ys : Str),
    splitLinesAux acc (xs ++ ys) =
      ((splitLinesAux acc xs).1 ++ (splitLinesAux (splitLinesAux acc xs).2 ys).1,
       (splitLinesAux (splitLinesAux acc xs).2 ys).2) := by
  induction xs with
  | nil => intro acc ys; simp [splitLinesAux]
  | cons c cs ih =>
      intro acc ys
      by_cases h : c = '\n'
      · simp [splitLinesAux, h, ih]
      · simp only [List.cons_append, splitLinesAux, h, ite_false, if_neg,
          not_false_iff, List.append_eq]
        rw [ih]

/-- Observational agreement of two stream states: equal accumulated text
and stop flag, and equal line buffer while not stopped. -/
def agreeSSE (s t : SSEState) : Prop :=
  s.out = t.out ∧ s.stopFlag = t.stopFlag ∧
    (s.stopFlag = false → s.lineBuf = t.lineBuf)

theorem agreeSSE_refl (s : SSEState) : agreeSSE s s := ⟨rfl, rfl, fun _ => rfl⟩

theorem agreeSSE_trans {s t u : SSEState} (h1 : agreeSSE s t)
    (h2 : agreeSSE t u) : agreeSSE s u := by
  refine ⟨h1.1.trans h2.1, (h1.2.1).trans h2.2.1, fun hf => ?_⟩
  exact (h1.2.2 hf).trans (h2.2.2 (h1.2.1 ▸ hf))

theorem processChunk_stopped (parse : Str → Option Str) {s : SSEState}
    (h : s.stopFlag = true) (c : Str) : processChunk parse s c = s := by
  simp [processChunk, h]

theorem processChunk_nil (parse : Str → Option Str) (s : SSEState) :
    processChunk parse s [] = s := by
  by_cases h : s.stopFlag = true
  · exact processChunk_stopped parse h []
  · cases s
    simp_all [processChunk, splitLinesAux, processLines]

theorem processChunk_eq (parse : Str → Option Str) (s : SSEState) (c : Str)
    (h : s.stopFlag = false) :
    processChunk parse s c =
      ⟨(splitLinesAux s.lineBuf c).2,
       (linesRes parse (splitLinesAux s.lineBuf c).1).2,
       s.out ++ (linesRes parse (splitLinesAux s.lineBuf c).1).1⟩ := by
  rw [processChunk, if_neg (by simp [h])]
  exact processLines_eq parse _ _ (by simp [h])

theorem processChunk_split (parse : Str → Option Str) (s : SSEState)
    (a b : Str) :
    agreeSSE (processChunk parse (processChunk parse s a) b)
             (processChunk parse s (a ++ b)) := by
  by_cases h : s.stopFlag = true
  · rw [processChunk_stopped parse h, processChunk_stopped parse h,
      processChunk_stopped parse h]
    exact agreeSSE_refl s
  · have h' : s.stopFlag = false := by simpa using h
    rw [processChunk_eq parse s a h', processChunk_eq parse s (a ++ b) h',
      splitLinesAux_append a s.lineBuf b, linesRes_append]
    by_cases hd1 : (linesRes parse (splitLinesAux s.lineBuf a).1).2 = true
    · rw [processChunk_stopped parse (by simp [hd1])]
      simp [agreeSSE, hd1]
    · have hd1' : (linesRes parse (splitLinesAux s.lineBuf a).1).2 = false := by
        simpa using hd1
      rw [processChunk_eq parse _ b (by simp [hd1'])]
      simp [agreeSSE, hd1', List.append_assoc]

theorem foldl_processChunk_join (parse : Str → Option Str)
    (chunks : List Str) : ∀ (s : SSEState),
    agreeSSE (List.foldl (processChunk parse) s chunks)
             (processChunk parse s chunks.flatten) := by
  induction chunks with
  | nil =>
      intro s
      rw [List.foldl_nil, List.flatten_nil, processChunk_nil]
      exact agreeSSE_refl s
  | cons c rest ih =>
      intro s
      rw [List.foldl_cons, List.flatten_cons]
      exact agreeSSE_trans (ih (processChunk parse s c))
        (processChunk_split parse s c rest.flatten)

theorem foldl_processChunk_stopped (parse : Str → Option Str)
    (chunks : List Str) {s : SSEState} (h : s.stopFlag = true) :
    List.foldl (processChunk parse) s chunks = s := by
  induction chunks with
  | nil => rfl
  | cons c rest ih => rw [List.foldl_cons, processChunk_stopped parse h, ih]

/-! ## C4: split invariance and `[DONE]` termination -/

/-- C4: for every byte sequence and every partition of it into read
chunks, the SSE decoder of `sendMessageWithDeepSeek` accumulates the same
text (and the same termination flag) as decoding the unsplit input; and
once a `data: [DONE]` line has set the stop flag, feeding any further
bytes leaves the state unchanged, so no further text is ever emitted. -/
theorem sse_split_invariant_and_done_terminates (parse : Str → Option Str)
    (chunks extra : List Str) :
    ((processStream parse chunks).out
        = (processStream parse [chunks.flatten]).out
      ∧ (processStream parse chunks).stopFlag
        = (processStream parse [chunks.flatten]).stopFlag)
    ∧ ((processStream parse chunks).stopFlag = true →
        processStream parse (chunks ++ extra) = processStream parse chunks) := by
  constructor
  · have h := foldl_processChunk_join parse chunks initSSE
    exact ⟨h.1, h.2.1⟩
  · intro h
    show List.foldl (processChunk parse) initSSE (chunks ++ extra) = _
    rw [List.foldl_append]
    exact foldl_processChunk_stopped parse extra h

/-- A concrete content decoder used to instantiate the SSE theorems:
payload `A` carries `Hel`, payload `B` carries `lo`, everything else
fails to parse. -/
def sseParseW : Str → Option Str := fun j =>
  if j = str "A" then some (str "Hel")
  else if j = str "B" then some (str "lo")
  else none

/-- Witness for C4 at a concrete split stream containing `[DONE]`. -/
theorem sse_split_invariant_and_done_terminates_witness :
    ((processStream sseParseW
        [str "data: A\nda", str "ta: [DONE]\ndata: B\n"]).out
      = (processStream sseParseW
        [(str "data: A\nda" ++ str "ta: [DONE]\ndata: B\n")]).out)
    ∧ processStream sseParseW
        ([str "data: A\nda", str "ta: [DONE]\ndata: B\n"] ++ [str "data: B\n"])
      = processStream sseParseW [str "data: A\nda", str "ta: [DONE]\ndata: B\n"] := by
  have h := sse_split_invariant_and_done_terminates sseParseW
    [str "data: A\nda", str "ta: [DONE]\ndata: B\n"] [str "data: B\n"]
  exact ⟨by simpa using h.1.1, h.2 (by decide)⟩

/-! ## C9: malformed records are skipped -/

/-- Encode a list of payloads as the wire format: one `data: ` record per
payload, newline-terminated. -/
def sseEncode (ps : List Str) : Str :=
  (ps.map (fun p => dataTag ++ p ++ ['\n'])).flatten

theorem splitLinesAux_line (l : Str) (hl : '\n' ∉ l) : ∀ (acc rest : Str),
    splitLinesAux acc (l ++ '\n' :: rest) =
      ((acc ++ l) :: (splitLinesAux [] rest).1, (splitLinesAux [] rest).2) := by
  induction l with
  | nil => intro acc rest; simp [splitLinesAux]
  | cons c cs ih =>
      intro acc rest
      have hc : ¬ c = '\n' := fun h => hl (h ▸ List.mem_cons_self c cs)
      have hcs : '\n' ∉ cs := fun h => hl (List.mem_cons_of_mem c h)
      simp only [List.cons_append, splitLinesAux, hc, ite_false, if_neg,
        not_false_iff, List.append_eq]
      rw [ih hcs]
      simp

theorem splitLinesAux_sseEncode (ps : List Str)
    (h : ∀ p ∈ ps, '\n' ∉ p) :
    splitLinesAux [] (sseEncode ps) = (ps.map (fun p => dataTag ++ p), []) := by
  induction ps with
  | nil => simp [sseEncode, splitLinesAux]
  | cons p rest ih =>
      have hp : '\n' ∉ dataTag ++ p := by
        intro hm
        rcases List.mem_append.mp hm with hm | hm
        · revert hm; decide
        · exact h p (List.mem_cons_self p rest) hm
      have : sseEncode (p :: rest) = (dataTag ++ p) ++ '\n' :: sseEncode rest := by
        simp [sseEncode, List.append_assoc]
      rw [this, splitLinesAux_line (dataTag ++ p) hp [] (sseEncode rest),
        ih (fun q hq => h q (List.mem_cons_of_mem p hq))]
      simp

theorem linesRes_encoded (parse : Str → Option Str) (ps : List Str)
    (h : ∀ p ∈ ps, trimChars p ≠ doneLit) :
    linesRes parse (ps.map (fun p => dataTag ++ p)) =
      ((ps.filterMap (fun p => parse (trimChars p))).flatten, false) := by
  induction ps with
  | nil => simp [linesRes]
  | cons p rest ih =>
      have hpre : dataTag.isPrefixOf (dataTag ++ p) = true := by
        rw [List.isPrefixOf_iff_prefix]
        exact List.prefix_append dataTag p
      have hdrop : (dataTag ++ p).drop 6 = p := rfl
      have hd : trimChars p ≠ doneLit := h p (List.mem_cons_self p rest)
      have ih' := ih (fun q hq => h q (List.mem_cons_of_mem p hq))
      cases hq : parse (trimChars p) with
      | some t =>
          simp only [List.map_cons, linesRes, hpre, hdrop, hd, hq, ite_true,
            ite_false, if_neg, not_false_iff, if_false, ih']
          simp [List.filterMap_cons, hq]
      | none =>
          simp only [List.map_cons, linesRes, hpre, hdrop, hd, hq, ite_true,
            ite_false, if_neg, not_false_iff, if_false, ih']
          simp [List.filterMap_cons, hq]

/-- C9: decoding a stream of `data: ` records, every record whose payload
fails to parse is skipped without terminating the stream, and the
accumulated text is exactly the concatenation of the content deltas of
the records that do parse. -/
theorem sse_malformed_records_skipped (parse : Str → Option Str)
    (ps : List Str) (h : ∀ p ∈ ps, '\n' ∉ p ∧ trimChars p ≠ doneLit) :
    (processStream parse [sseEncode ps]).out
      = (ps.filterMap (fun p => parse (trimChars p))).flatten
    ∧ (processStream parse [sseEncode ps]).stopFlag = false := by
  have h1 := splitLinesAux_sseEncode ps (fun p hp => (h p hp).1)
  have h2 := linesRes_encoded parse ps (fun p hp => (h p hp).2)
  have hchunk : processStream parse [sseEncode ps]
      = processChunk parse initSSE (sseEncode ps) := rfl
  rw [hchunk, processChunk_eq parse initSSE (sseEncode ps) rfl]
  simp only [initSSE]
  rw [h1]
  simp [h2]

/-- Witness for C9: one well-formed record between two malformed ones. -/
theorem sse_malformed_records_skipped_witness :
    (processStream sseParseW
        [sseEncode [str "oops", str "A", str "zap"]]).out = str "Hel"
    ∧ (processStream sseParseW
        [sseEncode [str "oops", str "A", str "zap"]]).stopFlag = false := by
  have h := sse_malformed_records_skipped sseParseW
    [str "oops", str "A", str "zap"] (by decide)
  exact ⟨by rw [h.1]; decide, h.2⟩

/-! ## C7: citation deduplication -/

/-- The keys of a sequence in first-seen order (the key order of a
JavaScript `Map` built by successive insertion). -/
def firstSeenKeys : List Str → List Str
  | [] => []
  | u :: us => u :: firstSeenKeys (us.filter (fun v => !(v == u)))
termination_by l => l.length
decreasing_by
  simp only [List.length_cons]
  exact Nat.lt_succ_of_le (List.length_filter_le _ _)

/-- The last citation of a sequence carrying a given uri, if any. -/
def lastWith (cs : List Citation) (u : Str) : Option Citation :=
  (cs.filter (fun c => c.uri == u)).getLast?

theorem mem_firstSeenKeys (u : Str) : ∀ (us : List Str),
    u ∈ firstSeenKeys us ↔ u ∈ us := by
  intro us
  induction us using firstSeenKeys.induct with
  | case1 => simp [firstSeenKeys]
  | case2 v vs ih =>
      rw [firstSeenKeys]
      by_cases huv : u = v
      · simp [huv]
      · simp only [List.mem_cons, huv, false_or, ih, List.mem_filter]
        constructor
        · exact fun hh => hh.1
        · exact fun hh => ⟨hh, by simp [huv]⟩

theorem firstSeenKeys_concat (u : Str) : ∀ (us : List Str),
    firstSeenKeys (us ++ [u]) =
      if u ∈ us then firstSeenKeys us else firstSeenKeys us ++ [u] := by
  intro us
  induction us using firstSeenKeys.induct with
  | case1 => simp [firstSeenKeys]
  | case2 v vs ih =>
      by_cases huv : u = v
      · subst huv
        rw [List.cons_append, firstSeenKeys, firstSeenKeys]
        have : (vs ++ [u]).filter (fun v => !(v == u))
            = vs.filter (fun v => !(v == u)) := by
          rw [List.filter_append]
          simp
        rw [this]
        simp
      · rw [List.cons_append, firstSeenKeys, firstSeenKeys]
        have : (vs ++ [u]).filter (fun w => !(w == v))
            = vs.filter (fun w => !(w == v)) ++ [u] := by
          rw [List.filter_append]
          simp [huv]
        rw [this, ih]
        have hmem : u ∈ vs.filter (fun w => !(w == v)) ↔ u ∈ vs := by
          simp [List.mem_filter, huv]
        by_cases hv : u ∈ vs
        · simp [hv, hmem.mpr hv, huv]
        · have : u ∉ vs.filter (fun w => !(w == v)) := fun hh => hv (hmem.mp hh)
          simp [hv, this, huv]

theorem lastWith_concat (cs : List Citation) (c : Citation) (u : Str) :
    lastWith (cs ++ [c]) u =
      if c.uri = u then some c else lastWith cs u := by
  unfold lastWith
  rw [List.filter_append]
  by_cases h : c.uri = u
  · simp [h, List.getLast?_concat]
  · simp [h]

theorem foldl_insertLww_inv : ∀ (cs : List Citation),
    ((List.foldl insertLww [] cs).map (fun p => p.1)
        = firstSeenKeys (cs.map (fun c => c.uri)))
    ∧ (∀ p ∈ List.foldl insertLww [] cs,
        p.2.uri = p.1 ∧ lastWith cs p.1 = some p.2) := by
  intro cs
  induction cs using List.reverseRecOn with
  | nil => exact ⟨by simp [firstSeenKeys], by simp⟩
  | append_singleton l c ih =>
      rw [List.foldl_append, List.foldl_cons, List.foldl_nil]
      have hmapc : (l ++ [c]).map (fun x => x.uri)
          = l.map (fun x => x.uri) ++ [c.uri] := by simp
      set m := List.foldl insertLww [] l with hm
      by_cases hany : m.any (fun p => p.1 == c.uri) = true
      · have hkey : c.uri ∈ l.map (fun x => x.uri) := by
          rcases List.any_eq_true.mp hany with ⟨p, hp, hpe⟩
          have : p.1 = c.uri := by simpa using hpe
          have : c.uri ∈ m.map (fun p => p.1) := this ▸ List.mem_map_of_mem _ hp
          rw [ih.1, mem_firstSeenKeys] at this
          exact this
        constructor
        · rw [insertLww, if_pos hany, List.map_map, hmapc,
            firstSeenKeys_concat, if_pos hkey, ← ih.1]
          apply List.map_congr_left
          intro p _
          by_cases hc : p.1 = c.uri <;> simp [hc]
        · intro p hp
          rw [insertLww, if_pos hany] at hp
          rcases List.mem_map.mp hp with ⟨q, hq, hpq⟩
          by_cases hc : q.1 == c.uri
          · rw [if_pos hc] at hpq
            have hcu : q.1 = c.uri := by simpa using hc
            subst hpq
            refine ⟨hcu.symm, ?_⟩
            rw [lastWith_concat, if_pos hcu.symm]
          · rw [if_neg hc] at hpq
            subst hpq
            have hne : ¬ c.uri = q.1 := by
              intro hh
              exact hc (by simp [hh])
            rw [lastWith_concat, if_neg hne]
            exact (ih.2 q hq)
      · have hkey : c.uri ∉ l.map (fun x => x.uri) := by
          intro hmem
          apply hany
          rw [← mem_firstSeenKeys, ← ih.1] at hmem
          rcases List.mem_map.mp hmem with ⟨p, hp, hpe⟩
          exact List.any_eq_true.mpr ⟨p, hp, by simp [hpe]⟩
        constructor
        · rw [insertLww, if_neg hany, hmapc, List.map_append,
            firstSeenKeys_concat, if_neg hkey, ← ih.1]
          rfl
        · intro p hp
          rw [insertLww, if_neg hany] at hp
          rcases List.mem_append.mp hp with hp | hp
          · have hne : ¬ c.uri = p.1 := by
              intro hh
              apply hany
              exact List.any_eq_true.mpr ⟨p, hp, by simp [hh]⟩
            rw [lastWith_concat, if_neg hne]
            exact ih.2 p hp
          · have hpc : p = (c.uri, c) := by simpa using hp
            subst hpc
            exact ⟨rfl, by rw [lastWith_concat, if_pos rfl]⟩

theorem saveCurrentChat_fields (s : AppState) :
    (saveCurrentChat s).chatHistoryArray = s.chatHistoryArray
    ∧ (saveCurrentChat s).activeChatId = s.activeChatId
    ∧ (saveCurrentChat s).currentSettings = s.currentSettings
    ∧ (saveCurrentChat s).chatIndex = s.chatIndex := by
  cases h : s.activeChatId <;> simp [saveCurrentChat, h]

theorem sendMessageWithGemini_history (s : AppState) (chunks : List GenChunk)
    (processed : Nat) (e : ℚ) (ts : Str) :
    (sendMessageWithGemini s chunks processed e ts).chatHistoryArray
      = s.chatHistoryArray ++
        [⟨Sender.model, (runGeminiCore chunks processed).1, ts,
          some ⟨(runGeminiCore chunks processed).2.2,
            jsDiv ((runGeminiCore chunks processed).2.2 : ℚ) (e / 1000)⟩,
          none, some (uniqueSources (runGeminiCore chunks processed).2.1)⟩] :=
  (saveCurrentChat_fields _).1

theorem sendMessageWithDeepSeek_history (s : AppState)
    (parse : Str → Option Str) (chunks : List Str) (reads : Nat) (ts : Str) :
    (sendMessageWithDeepSeek s none parse chunks reads ts).chatHistoryArray
      = s.chatHistoryArray ++
        [⟨Sender.model, (processStream parse (chunks.take reads)).out, ts,
          none, none, none⟩] :=
  (saveCurrentChat_fields _).1

/-- C7: the citations committed with a Gemini model turn are the
accumulated grounding chunks deduplicated by uri — uris in first-seen
order, each carrying the last citation written for that uri — and the
concrete three-chunk example yields exactly the expected list. -/
theorem citations_deduped_lww_first_seen (cs : List Citation) (s : AppState)
    (chunks : List GenChunk) (processed : Nat) (e : ℚ) (ts : Str) :
    ((uniqueSources cs).map (fun c => c.uri)
        = firstSeenKeys (cs.map (fun c => c.uri)))
    ∧ (∀ c ∈ uniqueSources cs, lastWith cs c.uri = some c)
    ∧ (∃ m : ChatMessage,
        (sendMessageWithGemini s chunks processed e ts).chatHistoryArray
          = s.chatHistoryArray ++ [m]
        ∧ m.groundingSources = some (uniqueSources
            (((chunks.take processed).map (fun c => c.grounding)).flatten)))
    ∧ uniqueSources [⟨str "a", str "X"⟩, ⟨str "a", str "Y"⟩, ⟨str "b", str "Z"⟩]
        = [⟨str "a", str "Y"⟩, ⟨str "b", str "Z"⟩] := by
  refine ⟨?_, ?_, ?_, by decide⟩
  · have h := foldl_insertLww_inv cs
    rw [uniqueSources, List.map_map, ← h.1]
    apply List.map_congr_left
    intro p hp
    exact (h.2 p hp).1
  · intro c hc
    have h := foldl_insertLww_inv cs
    rw [uniqueSources] at hc
    rcases List.mem_map.mp hc with ⟨p, hp, hpc⟩
    rw [← hpc, (h.2 p hp).1]
    exact (h.2 p hp).2
  · exact ⟨_, sendMessageWithGemini_history s chunks processed e ts, rfl⟩

/-- Witness for C7 instantiating the universally quantified parts. -/
theorem citations_deduped_lww_first_seen_witness :
    ((uniqueSources [⟨str "a", str "X"⟩]).map (fun c => c.uri)
        = firstSeenKeys [str "a"])
    ∧ lastWith [⟨str "a", str "X"⟩] (str "a") = some ⟨str "a", str "X"⟩ := by
  have h := citations_deduped_lww_first_seen [⟨str "a", str "X"⟩]
    ⟨none, [], ⟨none, none, none⟩, [], []⟩ [] 0 0 (str "t")
  refine ⟨h.1, ?_⟩
  have := h.2.1 ⟨str "a", str "X"⟩ (by decide)
  simpa using this

/-! ## C1: what is committed on cancellation -/

/-- A concrete app state used to refute C1. -/
def c1State : AppState :=
  ⟨some (str "c1"), [], ⟨none, none, some ModelKind.gemini⟩,
   [⟨str "c1", str "t", false, false⟩], []⟩

/-- Counterexample to C1: cancelling the Gemini stream before any chunk
is processed still commits a model turn — with empty content — so the
turn sequence grows and an empty model turn is committed. -/
theorem cancel_before_text_still_commits :
    (sendMessageWithGemini c1State [⟨str "hi", [], some 5⟩] 0 1000
        (str "ts")).chatHistoryArray.length
      ≠ c1State.chatHistoryArray.length
    ∧ ((sendMessageWithGemini c1State [⟨str "hi", [], some 5⟩] 0 1000
        (str "ts")).chatHistoryArray.map (fun m => (m.sender, m.content)))
      = [(Sender.model, [])] := by decide

/-- C1 amended: on both providers, a model turn containing exactly the
text accumulated up to the cancellation point — possibly empty — is
always committed, and the turn sequence always grows by one. -/
theorem cancel_commits_accumulated_text (s : AppState)
    (chunks : List GenChunk) (processed : Nat) (e : ℚ) (ts : Str)
    (parse : Str → Option Str) (dchunks : List Str) (reads : Nat) (ts2 : Str) :
    (∃ m : ChatMessage,
      (sendMessageWithGemini s chunks processed e ts).chatHistoryArray
          = s.chatHistoryArray ++ [m]
        ∧ m.sender = Sender.model
        ∧ m.content = ((chunks.take processed).map (fun c => c.text)).flatten)
    ∧ (∃ m : ChatMessage,
      (sendMessageWithDeepSeek s none parse dchunks reads ts2).chatHistoryArray
          = s.chatHistoryArray ++ [m]
        ∧ m.sender = Sender.model
        ∧ m.content = (processStream parse (dchunks.take reads)).out) :=
  ⟨⟨_, sendMessageWithGemini_history s chunks processed e ts, rfl, rfl⟩,
   ⟨_, sendMessageWithDeepSeek_history s parse dchunks reads ts2, rfl, rfl⟩⟩

/-! ## C8: the committed stats -/

/-- A concrete app state used to refute C8. -/
def c8State : AppState :=
  ⟨some (str "c8"), [], ⟨none, none, some ModelKind.gemini⟩,
   [⟨str "c8", str "t", false, false⟩], []⟩

/-- Counterexample to C8: with 5 tokens and zero elapsed time the
committed speed is `Infinity`, not `5` as the claim requires. -/
theorem zero_elapsed_speed_is_infinite :
    ((sendMessageWithGemini c8State [⟨str "hi", [], some 5⟩] 1 0
        (str "ts")).chatHistoryArray.map (fun m => m.stats))
      = [some ⟨5, JSNum.inf⟩]
    ∧ JSNum.inf ≠ JSNum.fin 5 := by
  constructor
  · rw [sendMessageWithGemini_history]
    simp [c8State, runGeminiCore, jsDiv]
  · simp

/-- C8 amended: the committed token count is the last processed chunk's
`usageMetadata.totalTokenCount` (0 when absent or when no chunk was
processed) and the speed is the unguarded JavaScript division
`tokens / elapsedSeconds`: finite `n/d` whenever the elapsed time is
non-zero (hence 0 when tokens is 0), `Infinity` for positive tokens over
zero elapsed time, and `NaN` for `0 / 0`. -/
theorem committed_stats_are_unguarded_division (s : AppState)
    (chunks : List GenChunk) (processed : Nat) (e : ℚ) (ts : Str) :
    (∃ m : ChatMessage,
      (sendMessageWithGemini s chunks processed e ts).chatHistoryArray
          = s.chatHistoryArray ++ [m]
        ∧ m.stats = some ⟨((chunks.take processed).getLast?.bind
              (fun c => c.usage)).getD 0,
            jsDiv (((chunks.take processed).getLast?.bind
              (fun c => c.usage)).getD 0 : ℚ) (e / 1000)⟩)
    ∧ (∀ n d : ℚ, d ≠ 0 → jsDiv n d = JSNum.fin (n / d))
    ∧ (∀ d : ℚ, d ≠ 0 → jsDiv 0 d = JSNum.fin 0)
    ∧ (∀ n : ℚ, 0 < n → jsDiv n 0 = JSNum.inf)
    ∧ jsDiv 0 0 = JSNum.nan := by
  refine ⟨⟨_, sendMessageWithGemini_history s chunks processed e ts, rfl⟩,
    ?_, ?_, ?_, by simp [jsDiv]⟩
  · intro n d hd
    simp [jsDiv, hd]
  · intro d hd
    simp [jsDiv, hd]
  · intro n hn
    simp [jsDiv, hn.ne.symm, hn]

/-- Witness for C8 amended at concrete inputs. -/
theorem committed_stats_are_unguarded_division_witness :
    jsDiv 4 2 = JSNum.fin 2 ∧ jsDiv 0 7 = JSNum.fin 0
    ∧ jsDiv 5 0 = JSNum.inf := by
  have h := committed_stats_are_unguarded_division c8State [] 0 0 (str "t")
  refine ⟨?_, ?_, ?_⟩
  · rw [h.2.1 4 2 (by norm_num)]
    norm_num
  · exact h.2.2.1 7 (by norm_num)
  · exact h.2.2.2.1 5 (by norm_num)

/-! ## C2: the archived-implies-unpinned invariant -/

/-- The invariant of the catalog: an archived entry is never pinned. -/
def archPinInvariant (idx : List ChatIndexItem) : Prop :=
  ∀ c ∈ idx, c.archived = true → c.pinned = false

theorem mem_modifyFirst {p : α → Bool} {f : α → α} {l : List α} {b : α}
    (hb : b ∈ modifyFirst p f l) :
    b ∈ l ∨ ∃ a ∈ l, p a = true ∧ b = f a := by
  induction l with
  | nil => simp [modifyFirst] at hb
  | cons a as ih =>
      by_cases hp : p a = true
      · rw [modifyFirst, if_pos hp] at hb
        rcases List.mem_cons.mp hb with hb | hb
        · exact Or.inr ⟨a, List.mem_cons_self a as, hp, hb⟩
        · exact Or.inl (List.mem_cons_of_mem a hb)
      · rw [modifyFirst, if_neg hp] at hb
        rcases List.mem_cons.mp hb with hb | hb
        · exact Or.inl (hb ▸ List.mem_cons_self a as)
        · rcases ih hb with hb | ⟨x, hx, hpx, hbx⟩
          · exact Or.inl (List.mem_cons_of_mem a hb)
          · exact Or.inr ⟨x, List.mem_cons_of_mem a hx, hpx, hbx⟩

/-- Counterexample to C2: `togglePin` applied to an archived entry is not
a no-op — it pins the entry, leaving it both archived and pinned, even
though the starting catalog satisfied the invariant. -/
theorem togglePin_on_archived_breaks_invariant :
    archPinInvariant [⟨str "a", str "t", false, true⟩]
    ∧ togglePin [⟨str "a", str "t", false, true⟩] (str "a")
        = [⟨str "a", str "t", true, true⟩]
    ∧ ¬ archPinInvariant
        (togglePin [⟨str "a", str "t", false, true⟩] (str "a")) := by
  refine ⟨by unfold archPinInvariant; decide, by decide, ?_⟩
  intro h
  have := h ⟨str "a", str "t", true, true⟩ (by decide) rfl
  simp at this

/-- C2 amended: `toggleArchive` always preserves the invariant (archiving
clears the pin), and `togglePin` preserves it when the entries carrying
the toggled id are not archived — but `togglePin` itself performs no
archived check, so the invariant is only maintained because the UI never
offers pinning on an archived entry; moreover `toggleArchive` of a
non-archived entry yields `pinned = false` and `archived = true`. -/
theorem archive_invariant_preservation (idx : List ChatIndexItem) (id : Str)
    (h : archPinInvariant idx) :
    archPinInvariant (toggleArchiveIndex idx id)
    ∧ ((∀ c ∈ idx, c.id = id → c.archived = false) →
        archPinInvariant (togglePin idx id))
    ∧ (∀ c : ChatIndexItem, c.archived = false →
        (archiveUpd c).archived = true ∧ (archiveUpd c).pinned = false) := by
  refine ⟨?_, ?_, ?_⟩
  · intro c hc harch
    rcases mem_modifyFirst hc with hc | ⟨a, ha, _, hca⟩
    · exact h c hc harch
    · rw [hca] at harch ⊢
      rw [archiveUpd] at harch ⊢
      simp only at harch ⊢
      simp [harch]
  · intro hid c hc harch
    rcases mem_modifyFirst hc with hc | ⟨a, ha, hpa, hca⟩
    · exact h c hc harch
    · have haid : a.id = id := by simpa using hpa
      have : c.archived = a.archived := by rw [hca]
      rw [this, hid a ha haid] at harch
      simp at harch
  · intro c hc
    simp [archiveUpd, hc]

/-- Witness for C2 amended at a concrete catalog. -/
theorem archive_invariant_preservation_witness :
    archPinInvariant
      (toggleArchiveIndex [⟨str "a", str "t", true, false⟩] (str "a"))
    ∧ archPinInvariant (togglePin [⟨str "a", str "t", true, false⟩] (str "a"))
    ∧ (archiveUpd ⟨str "a", str "t", true, false⟩).archived = true
    ∧ (archiveUpd ⟨str "a", str "t", true, false⟩).pinned = false := by
  have h := archive_invariant_preservation
    [⟨str "a", str "t", true, false⟩] (str "a")
    (by unfold archPinInvariant; decide)
  have h3 := h.2.2 ⟨str "a", str "t", true, false⟩ (by decide)
  exact ⟨h.1, h.2.1 (by decide), h3.1, h3.2⟩

/-! ## C3: loading an id with no stored payload -/

/-- A concrete app state used to refute C3: the active conversation `a`
has one turn in memory and the store holds nothing under id `b`. -/
def c3State : AppState :=
  ⟨some (str "a"),
   [⟨Sender.user, str "hi", str "t1", none, none, none⟩],
   ⟨some (str "inst"), none, none⟩, [], []⟩

/-- Counterexample to C3: `loadChat` of an id with no stored payload does
not reset to an empty conversation — it keeps the previous conversation's
turns and settings under the new active id. -/
theorem loadChat_missing_keeps_previous_turns :
    (loadChat c3State (str "b")).chatHistoryArray ≠ []
    ∧ (loadChat c3State (str "b")).chatHistoryArray = c3State.chatHistoryArray
    ∧ (loadChat c3State (str "b")).currentSettings = c3State.currentSettings
    ∧ (loadChat c3State (str "b")).activeChatId = some (str "b") := by decide

/-- C3 amended: when the requested id is not already active and has no
stored payload, `loadChat` changes only `activeChatId`; the turn sequence
and settings of the previously active conversation are retained. -/
theorem loadChat_missing_only_switches_id (s : AppState) (id : Str)
    (h1 : s.activeChatId ≠ some id) (h2 : getStoredChat s id = none) :
    loadChat s id = { s with activeChatId := some id } := by
  rw [loadChat, if_neg h1]
  have h2' : getStoredChat { s with activeChatId := some id } id = none := h2
  simp only [h2']

/-- Witness for C3 amended. -/
theorem loadChat_missing_only_switches_id_witness :
    loadChat c3State (str "c") = { c3State with activeChatId := some (str "c") } :=
  loadChat_missing_only_switches_id c3State (str "c") (by decide) (by decide)

/-! ## C5: archiving or deleting the active conversation -/

theorem loadChat_basic (s : AppState) (id : Str)
    (h : s.activeChatId ≠ some id) :
    (loadChat s id).activeChatId = some id
    ∧ (loadChat s id).chatIndex = s.chatIndex
    ∧ (loadChat s id).storage = s.storage := by
  rw [loadChat, if_neg h]
  cases hg : getStoredChat { s with activeChatId := some id } id <;> simp [hg]

theorem toggleArchiveIndex_id_unique (idx : List ChatIndexItem) (id : Str)
    (item : ChatIndexItem)
    (hn : (idx.map (fun c => c.id)).Nodup)
    (hf : idx.find? (fun c => c.id == id) = some item) :
    ∀ b ∈ toggleArchiveIndex idx id, b.id = id → b = archiveUpd item := by
  induction idx with
  | nil => simp [List.find?] at hf
  | cons c rest ih =>
      by_cases hc : (c.id == id) = true
      · simp only [List.find?_cons, hc] at hf
        have hcid : c.id = id := by simpa using hc
        intro b hb hbid
        rw [toggleArchiveIndex, modifyFirst, if_pos hc] at hb
        rcases List.mem_cons.mp hb with hb | hb
        · rw [hb, Option.some_inj.mp hf]
        · exfalso
          have : b.id ∈ rest.map (fun x => x.id) := List.mem_map_of_mem _ hb
          rw [hbid, ← hcid] at this
          exact (List.nodup_cons.mp (by simpa using hn)).1 this
      · have hcf : (c.id == id) = false := by simpa using hc
        simp only [List.find?_cons, hcf] at hf
        intro b hb hbid
        rw [toggleArchiveIndex, modifyFirst, if_neg hc] at hb
        rcases List.mem_cons.mp hb with hb | hb
        · exfalso
          exact hc (by simp [hb ▸ hbid])
        · exact ih (List.nodup_cons.mp (by simpa using hn)).2 hf b hb hbid

/-- C5: archiving or deleting the catalog entry of the active
conversation switches the active conversation to the first remaining
non-archived catalog entry when one exists, and otherwise results in a
fresh empty conversation with no id assigned — and in both operations no
new catalog entry is created. -/
theorem archive_delete_active_fallback (s : AppState) (id : Str)
    (item : ChatIndexItem)
    (hact : s.activeChatId = some id)
    (hn : (s.chatIndex.map (fun c => c.id)).Nodup)
    (hf : s.chatIndex.find? (fun c => c.id == id) = some item)
    (harch : item.archived = false) :
    ((toggleArchive s id).chatIndex = toggleArchiveIndex s.chatIndex id
      ∧ (∀ next, (toggleArchiveIndex s.chatIndex id).find?
            (fun c => !c.archived) = some next →
          (toggleArchive s id).activeChatId = some next.id)
      ∧ ((toggleArchiveIndex s.chatIndex id).find?
            (fun c => !c.archived) = none →
          (toggleArchive s id).activeChatId = none
          ∧ (toggleArchive s id).chatHistoryArray = []))
    ∧ ((deleteChat s id).chatIndex
          = s.chatIndex.filter (fun c => !(c.id == id))
      ∧ (∀ next, (s.chatIndex.filter (fun c => !(c.id == id))).find?
            (fun c => !c.archived) = some next →
          (deleteChat s id).activeChatId = some next.id)
      ∧ ((s.chatIndex.filter (fun c => !(c.id == id))).find?
            (fun c => !c.archived) = none →
          (deleteChat s id).activeChatId = none
          ∧ (deleteChat s id).chatHistoryArray = [])) := by
  have hcond : (!item.archived && s.activeChatId == some id) = true := by
    simp [harch, hact]
  constructor
  · rw [toggleArchive, hf]
    simp only [hcond, if_true, ite_true]
    refine ⟨?_, ?_, ?_⟩
    · cases hnx : (toggleArchiveIndex s.chatIndex id).find?
          (fun c => !c.archived) with
      | none => simp [hnx, startNewChat]
      | some next =>
          simp only [hnx]
          have hne : ({ s with chatIndex := toggleArchiveIndex s.chatIndex id
              : AppState }).activeChatId ≠ some next.id := by
            show s.activeChatId ≠ some next.id
            rw [hact]
            intro hcontra
            have hnid : next.id = id := by
              simpa using (Option.some_inj.mp hcontra).symm
            have hmem := List.mem_of_find?_eq_some hnx
            have hprop := List.find?_some hnx
            have := toggleArchiveIndex_id_unique s.chatIndex id item hn hf
              next hmem hnid
            rw [this] at hprop
            simp [archiveUpd, harch] at hprop
          exact (loadChat_basic _ next.id hne).2.1
    · intro next hnx
      simp only [hnx]
      have hne : ({ s with chatIndex := toggleArchiveIndex s.chatIndex id
          : AppState }).activeChatId ≠ some next.id := by
        show s.activeChatId ≠ some next.id
        rw [hact]
        intro hcontra
        have hnid : next.id = id := by
          simpa using (Option.some_inj.mp hcontra).symm
        have hmem := List.mem_of_find?_eq_some hnx
        have hprop := List.find?_some hnx
        have := toggleArchiveIndex_id_unique s.chatIndex id item hn hf
          next hmem hnid
        rw [this] at hprop
        simp [archiveUpd, harch] at hprop
      exact (loadChat_basic _ next.id hne).1
    · intro hnx
      simp [hnx, startNewChat]
  · rw [deleteChat, if_pos hact]
    refine ⟨?_, ?_, ?_⟩
    · cases hnx : (s.chatIndex.filter (fun c => !(c.id == id))).find?
          (fun c => !c.archived) with
      | none => simp [hnx, startNewChat]
      | some next =>
          simp only [hnx]
          have hne : ({ s with
              storage := s.storage.filter (fun p => !(p.1 == id))
              chatIndex := s.chatIndex.filter (fun c => !(c.id == id))
              : AppState }).activeChatId ≠ some next.id := by
            show s.activeChatId ≠ some next.id
            rw [hact]
            intro hcontra
            have hnid : next.id = id := by
              simpa using (Option.some_inj.mp hcontra).symm
            have hmem := List.mem_of_find?_eq_some hnx
            have := List.of_mem_filter hmem
            simp [hnid] at this
          exact (loadChat_basic _ next.id hne).2.1
    · intro next hnx
      simp only [hnx]
      have hne : ({ s with
          storage := s.storage.filter (fun p => !(p.1 == id))
          chatIndex := s.chatIndex.filter (fun c => !(c.id == id))
          : AppState }).activeChatId ≠ some next.id := by
        show s.activeChatId ≠ some next.id
        rw [hact]
        intro hcontra
        have hnid : next.id = id := by
          simpa using (Option.some_inj.mp hcontra).symm
        have hmem := List.mem_of_find?_eq_some hnx
        have := List.of_mem_filter hmem
        simp [hnid] at this
      exact (loadChat_basic _ next.id hne).1
    · intro hnx
      simp [hnx, startNewChat]

/-- A concrete app state used to instantiate C5: active chat `a` plus one
other non-archived chat `b`. -/
def c5State : AppState :=
  ⟨some (str "a"), [], ⟨none, none, none⟩,
   [⟨str "a", str "t", true, false⟩, ⟨str "b", str "u", false, false⟩], []⟩

/-- Witness for C5: archiving or deleting the active chat `a` switches
the active conversation to `b`. -/
theorem archive_delete_active_fallback_witness :
    (toggleArchive c5State (str "a")).activeChatId = some (str "b")
    ∧ (deleteChat c5State (str "a")).activeChatId = some (str "b") := by
  have h := archive_delete_active_fallback c5State (str "a")
    ⟨str "a", str "t", true, false⟩ rfl (by decide) (by decide) rfl
  exact ⟨h.1.2.1 ⟨str "b", str "u", false, false⟩ (by decide),
         h.2.2.1 ⟨str "b", str "u", false, false⟩ (by decide)⟩

/-! ## C6: editing a user turn -/

/-- Concrete two-turn history used to refute C6. -/
def c6Turns : List ChatMessage :=
  [⟨Sender.user, str "hi", str "t1", none, none, none⟩,
   ⟨Sender.model, str "yo", str "t2", none, none, none⟩]

/-- Counterexample to C6: editing the user turn at index 0 with text
whose trimmed form equals the existing content is a no-op — the history
is not truncated to length 1 and the content is not replaced — because
the save handler requires a non-empty trimmed text that differs from the
original. -/
theorem editUser_unchanged_text_is_noop :
    c6Turns[0]?.map (fun m => m.sender) = some Sender.user
    ∧ handleEditSave c6Turns 0 (str " hi ") = c6Turns
    ∧ ¬ ((handleEditSave c6Turns 0 (str " hi ")).length = 0 + 1
         ∧ (handleEditSave c6Turns 0 (str " hi "))[0]?.map (fun m => m.content)
             = some (str " hi ")) := by decide

/-- C6 amended: when the trimmed new text is non-empty and differs from
the content of the user turn at `index`, the edit replaces that turn's
content with the trimmed text and truncates every later turn, leaving
exactly `index + 1` turns. -/
theorem editUser_replaces_and_truncates (turns : List ChatMessage)
    (index : Nat) (m : ChatMessage) (input : Str)
    (hget : turns[index]? = some m) (hrole : m.sender = Sender.user)
    (hne : trimChars input ≠ []) (hdiff : trimChars input ≠ m.content) :
    (handleEditSave turns index input).length = index + 1
    ∧ (handleEditSave turns index input)[index]?
        = some { m with content := trimChars input } := by
  have hlt : index < turns.length := by
    rcases List.getElem?_eq_some.mp hget with ⟨h, _⟩
    exact h
  have hcond : (decide (trimChars input ≠ []) &&
      decide (trimChars input ≠ m.content)) = true := by
    simp [hne, hdiff]
  rw [handleEditSave, hget]
  simp only [hcond, if_true, ite_true]
  constructor
  · rw [List.length_take, List.length_set]
    omega
  · rw [List.getElem?_take_of_lt (Nat.lt_succ_self index)]
    rw [List.getElem?_set]
    simp [hlt]

/-- Witness for C6 amended: a genuine edit truncates to one turn. -/
theorem editUser_replaces_and_truncates_witness :
    (handleEditSave c6Turns 0 (str "new")).length = 0 + 1
    ∧ (handleEditSave c6Turns 0 (str "new"))[0]?
        = some ⟨Sender.user, str "new", str "t1", none, none, none⟩ := by
  have h := editUser_replaces_and_truncates c6Turns 0
    ⟨Sender.user, str "hi", str "t1", none, none, none⟩ (str "new")
    (by decide) rfl (by decide) (by decide)
  exact ⟨h.1, by rw [h.2]; decide⟩

/-! ## C10: the user turn is persisted only with the model commit -/

theorem lookupStore_setStore (st : List (Str × StoredChat)) (k : Str)
    (v : StoredChat) : lookupStore (setStore st k v) k = some v := by
  induction st with
  | nil => simp [setStore, lookupStore]
  | cons p rest ih =>
      by_cases hp : (p.1 == k) = true
      · have hany : ((p :: rest).any (fun q => q.1 == k)) = true := by
          simp [List.any_cons, hp]
        rw [setStore, if_pos hany]
        simp only [List.map_cons, hp, if_pos, ite_true]
        simp [lookupStore, List.find?_cons]
      · by_cases hr : (rest.any (fun q => q.1 == k)) = true
        · have hany : ((p :: rest).any (fun q => q.1 == k)) = true := by
            simp [List.any_cons, hr]
          rw [setStore, if_pos hany]
          simp only [List.map_cons, hp, ite_false, if_neg, Bool.false_eq_true,
            not_false_iff]
          have hih := ih
          rw [setStore, if_pos hr] at hih
          rw [lookupStore, List.find?_cons]
          simp only [hp]
          exact hih
        · have hany : ¬ ((p :: rest).any (fun q => q.1 == k)) = true := by
            simp only [List.any_cons, Bool.or_eq_true]
            rintro (h | h)
            · exact hp h
            · exact hr h
          rw [setStore, if_neg hany]
          have hih := ih
          rw [setStore, if_neg hr] at hih
          rw [List.cons_append, lookupStore, List.find?_cons]
          simp only [hp]
          exact hih

theorem sendMessageWithGemini_active (s : AppState) (chunks : List GenChunk)
    (k : Nat) (e : ℚ) (ts : Str) :
    (sendMessageWithGemini s chunks k e ts).activeChatId = s.activeChatId :=
  (saveCurrentChat_fields _).2.1

theorem sendMessageWithGemini_save (s : AppState) (id : Str)
    (hact : s.activeChatId = some id) (chunks : List GenChunk) (k : Nat)
    (e : ℚ) (ts : Str) :
    lookupStore (sendMessageWithGemini s chunks k e ts).storage id
      = some ⟨s.currentSettings,
          (sendMessageWithGemini s chunks k e ts).chatHistoryArray⟩ := by
  rw [sendMessageWithGemini_history]
  show lookupStore (saveCurrentChat _).storage id = _
  rw [saveCurrentChat]
  simp only [hact]
  exact lookupStore_setStore _ id _

/-- C10: on a send, the user turn is pushed onto the in-memory history
but nothing is written to the conversation store at that point; if the
session fails before any commit, the store is unchanged (so the persisted
snapshot lacks the new user turn while memory has it), and on a Gemini
session the one store write made under the active id carries the user
turn together with the committed model turn. -/
theorem user_turn_persisted_only_with_commit (s : AppState) (input : Str)
    (file : Option FileData) (newId : Str) (userTs : Str)
    (chunks : List GenChunk) (k : Nat) (e : ℚ) (ts : Str)
    (hne : trimChars input ≠ []) :
    ((handleFormSubmit s input file newId userTs SendOutcome.fail).storage
        = s.storage
      ∧ (handleFormSubmit s input file newId userTs
          SendOutcome.fail).chatHistoryArray
        = s.chatHistoryArray
            ++ [⟨Sender.user, trimChars input, userTs, none, file, none⟩])
    ∧ (∃ (id : Str) (m : ChatMessage),
        (handleFormSubmit s input file newId userTs
            (SendOutcome.gemini chunks k e ts)).activeChatId = some id
        ∧ m.sender = Sender.model
        ∧ (handleFormSubmit s input file newId userTs
            (SendOutcome.gemini chunks k e ts)).chatHistoryArray
          = s.chatHistoryArray
              ++ [⟨Sender.user, trimChars input, userTs, none, file, none⟩, m]
        ∧ lookupStore (handleFormSubmit s input file newId userTs
            (SendOutcome.gemini chunks k e ts)).storage id
          = some ⟨s.currentSettings,
              s.chatHistoryArray
                ++ [⟨Sender.user, trimChars input, userTs, none, file, none⟩,
                    m]⟩) := by
  have hguard : ¬ (trimChars input = [] ∧ file = none) := fun hh => hne hh.1
  cases hs : s.activeChatId with
  | none =>
      constructor
      · rw [handleFormSubmit, if_neg hguard]
        simp [hs]
      · refine ⟨newId, ⟨Sender.model, (runGeminiCore chunks k).1, ts,
          some ⟨(runGeminiCore chunks k).2.2,
            jsDiv ((runGeminiCore chunks k).2.2 : ℚ) (e / 1000)⟩, none,
          some (uniqueSources (runGeminiCore chunks k).2.1)⟩, ?_, rfl, ?_, ?_⟩
        · rw [handleFormSubmit, if_neg hguard]
          simp only [hs, if_pos, ite_true]
          rw [sendMessageWithGemini_active]
        · rw [handleFormSubmit, if_neg hguard]
          simp only [hs, if_pos, ite_true]
          rw [sendMessageWithGemini_history]
          simp [List.append_assoc]
        · have hsave := sendMessageWithGemini_save
            ({ s with
                activeChatId := some newId
                chatIndex :=
                  ⟨newId,
                   if (trimChars input).take 30 ≠ [] then (trimChars input).take 30
                   else str "New Chat", false, false⟩ :: s.chatIndex
                chatHistoryArray := s.chatHistoryArray ++
                  [⟨Sender.user, trimChars input, userTs, none, file, none⟩] })
            newId rfl chunks k e ts
          rw [sendMessageWithGemini_history] at hsave
          rw [handleFormSubmit, if_neg hguard]
          simp only [hs, if_pos, ite_true]
          refine hsave.trans ?_
          simp [List.append_assoc]
  | some a =>
      constructor
      · rw [handleFormSubmit, if_neg hguard]
        simp [hs]
      · refine ⟨a, ⟨Sender.model, (runGeminiCore chunks k).1, ts,
          some ⟨(runGeminiCore chunks k).2.2,
            jsDiv ((runGeminiCore chunks k).2.2 : ℚ) (e / 1000)⟩, none,
          some (uniqueSources (runGeminiCore chunks k).2.1)⟩, ?_, rfl, ?_, ?_⟩
        · rw [handleFormSubmit, if_neg hguard]
          simp only [hs, ite_false, if_neg, reduceCtorEq, not_false_iff]
          rw [sendMessageWithGemini_active]
        · rw [handleFormSubmit, if_neg hguard]
          simp only [hs, ite_false, if_neg, reduceCtorEq, not_false_iff]
          rw [sendMessageWithGemini_history]
          simp [List.append_assoc]
        · have hsave := sendMessageWithGemini_save
            ({ s with
                chatHistoryArray := s.chatHistoryArray ++
                  [⟨Sender.user, trimChars input, userTs, none, file, none⟩] })
            a hs chunks k e ts
          rw [sendMessageWithGemini_history] at hsave
          rw [hs] at hsave
          rw [handleFormSubmit, if_neg hguard]
          simp only [hs, ite_false, if_neg, reduceCtorEq, not_false_iff]
          refine hsave.trans ?_
          simp [List.append_assoc]

/-- A concrete app state used to instantiate C10. -/
def c10State : AppState :=
  ⟨some (str "x"), [], ⟨none, none, some ModelKind.gemini⟩,
   [⟨str "x", str "t", false, false⟩], []⟩

/-- Witness for C10 at a concrete send. -/
theorem user_turn_persisted_only_with_commit_witness :
    (handleFormSubmit c10State (str " q ") none (str "n") (str "ut")
        SendOutcome.fail).storage = c10State.storage
    ∧ (∃ (id : Str) (m : ChatMessage),
        (handleFormSubmit c10State (str " q ") none (str "n") (str "ut")
            (SendOutcome.gemini [] 0 1000 (str "mt"))).activeChatId = some id
        ∧ m.sender = Sender.model) := by
  have h := user_turn_persisted_only_with_commit c10State (str " q ") none
    (str "n") (str "ut") [] 0 1000 (str "mt") (by decide)
  obtain ⟨id, m, h1, h2, _, _⟩ := h.2
  exact ⟨h.1.1, id, m, h1, h2⟩

end RitsChat
